import Mathlib

/-!
# Verification of `src/data_structures/heap.js` (class `MaxHeap`)

Shallow embedding of the array-backed, 1-indexed bounded max-heap.  The JS
storage array is modelled as a `List (Record α)`; slot 0 is the unused
sentinel (JS `null`), and the "undefined"-filled fresh slots of the empty
constructor are modelled by the `default` record.  JS numbers used as
priorities are modelled as `Int`; the element payload is an opaque type
parameter `α`.  The mutating methods become state-passing functions; the
JS `throw` in `insert` becomes an `Except.error` paired with the unchanged
heap, and `removeMax`'s bare `return` (undefined) becomes `Option.none`.
The two `while` loops (`_float`, `_sink`) are written with explicit fuel
(`_float` halves its index, `_sink` at least doubles it, so `i` resp.
`count + 1` steps always suffice); this keeps every definition executable.
-/

namespace AdsHeaps

/-- A `{priority, element}` record as stored in the heap. -/
structure Record (α : Type) where
  priority : Int
  element : α
  deriving DecidableEq

instance {α : Type} [Inhabited α] : Inhabited (Record α) := ⟨⟨0, default⟩⟩

/-- The state of a JS `MaxHeap` object: `_storage`, `size` (capacity), `_count`. -/
structure MaxHeap (α : Type) where
  storage : List (Record α)
  size : Nat
  count : Nat
  deriving DecidableEq

namespace MaxHeap

variable {α : Type} [Inhabited α]

/-- JS `MaxHeap.DEFAULT_SIZE`. -/
def DEFAULT_SIZE : Nat := 1023

/-- JS `this._storage[i]` (an out-of-range read yields JS `undefined`,
modelled by the `default` record; the methods never read out of range on
well-formed heaps). -/
def get (h : MaxHeap α) (i : Nat) : Record α := h.storage.getD i default

/-- JS `_left(i)`. -/
def left (i : Nat) : Nat := 2 * i

/-- JS `_right(i)`. -/
def right (i : Nat) : Nat := 2 * i + 1

/-- JS `_parent(i)` (`Math.floor(i / 2)`). -/
def parent (i : Nat) : Nat := i / 2

/-- JS `_inSizeBounds(i)`: `i > 0 && i <= this.size`. -/
def inSizeBounds (h : MaxHeap α) (i : Nat) : Prop := 1 ≤ i ∧ i ≤ h.size

instance (h : MaxHeap α) (i : Nat) : Decidable (h.inSizeBounds i) :=
  decidable_of_iff (1 ≤ i ∧ i ≤ h.size) Iff.rfl

/-- JS `_inCountBounds(i)`: `i > 0 && i <= this._count`. -/
def inCountBounds (h : MaxHeap α) (i : Nat) : Prop := 1 ≤ i ∧ i ≤ h.count

instance (h : MaxHeap α) (i : Nat) : Decidable (h.inCountBounds i) :=
  decidable_of_iff (1 ≤ i ∧ i ≤ h.count) Iff.rfl

/-- JS `_isHeapFull()`. -/
def isHeapFull (h : MaxHeap α) : Prop := h.count = h.size

/-- JS `_swap(i, j)`: exchange the records at slots `i` and `j`. -/
def swap (h : MaxHeap α) (i j : Nat) : MaxHeap α :=
  { h with storage := (h.storage.set i (h.get j)).set j (h.get i) }

/-- The body of the `while` loop of JS `_float(i)`, with fuel.  The loop
condition is `_inSizeBounds(p) && storage[i].priority > storage[p].priority`. -/
def floatAux (h : MaxHeap α) (i : Nat) : Nat → MaxHeap α
  | 0 => h
  | fuel + 1 =>
    let p := parent i
    if h.inSizeBounds p ∧ (h.get p).priority < (h.get i).priority then
      floatAux (h.swap i p) p fuel
    else h

/-- JS `_float(i)`.  The loop index halves each iteration, so `i` steps of
fuel always suffice. -/
def float (h : MaxHeap α) (i : Nat) : MaxHeap α := floatAux h i i

/-- The `max` computed by one iteration of the loop body of JS `_sink(i)`:
start from `i`, prefer the left child if strictly greater, then the right
child if strictly greater than the tracked max. -/
def sinkTarget (h : MaxHeap α) (i : Nat) : Nat :=
  let l := left i
  let r := right i
  let m1 := if h.inCountBounds l ∧ (h.get i).priority < (h.get l).priority then l else i
  if h.inCountBounds r ∧ (h.get m1).priority < (h.get r).priority then r else m1

/-- The `while` loop of JS `_sink(i)`, with fuel.  Each swap moves `i` to a
child (at least `i + 1`), and swaps only target indices `≤ _count`. -/
def sinkAux (h : MaxHeap α) (i : Nat) : Nat → MaxHeap α
  | 0 => h
  | fuel + 1 =>
    let m := sinkTarget h i
    if m = i then h else sinkAux (h.swap i m) m fuel

/-- JS `_sink(i)`: `_count + 1` steps of fuel always suffice, since the
current index strictly increases and swaps stop once it exceeds `_count`. -/
def sink (h : MaxHeap α) (i : Nat) : MaxHeap α := sinkAux h i (h.count + 1)

/-- The `for` loop of JS `_buildheap()`: `sink(i)` for `i` from the given
start down to 1. -/
def buildheapAux (h : MaxHeap α) : Nat → MaxHeap α
  | 0 => h
  | i + 1 => buildheapAux (h.sink (i + 1)) i

/-- JS `_buildheap()`: sink every index from `Math.floor(count / 2)` down to 1. -/
def buildheap (h : MaxHeap α) : MaxHeap α := buildheapAux h (h.count / 2)

/-- JS `new MaxHeap({size})`: a `null` sentinel at slot 0 followed by `size`
slots holding `{priority: undefined, element: undefined}` (both modelled by
the `default` record, which no method ever reads before overwriting). -/
def emptyHeap (size : Nat) : MaxHeap α :=
  { storage := List.replicate (size + 1) default, size := size, count := 0 }

/-- JS `new MaxHeap({fromArray})`: adopt the array as storage,
`size = fromArray.length - 1`, `count = size`, then `_buildheap()`. -/
def fromArray (arr : List (Record α)) : MaxHeap α :=
  buildheap { storage := arr, size := arr.length - 1, count := arr.length - 1 }

/-- JS `insert(priority, element)`: `throw` (a Capacity error) if slot
`_count + 1` is out of size bounds, otherwise write the record there,
`_float` it, and increment `_count`. -/
def insert (h : MaxHeap α) (priority : Int) (element : α) :
    Except String Unit × MaxHeap α :=
  let i := h.count + 1
  if h.inSizeBounds i then
    let h1 : MaxHeap α := { h with storage := h.storage.set i ⟨priority, element⟩ }
    let h2 := float h1 i
    (Except.ok (), { h2 with count := h2.count + 1 })
  else
    (Except.error "Heap is full!", h)

/-- JS `removeMax()`: `undefined` (here `none`) on an empty heap; otherwise
swap root and last, decrement `_count`, sink the new root, and return the
element now sitting at the old last slot. -/
def removeMax (h : MaxHeap α) : Option α × MaxHeap α :=
  if h.count = 0 then
    (none, h)
  else
    let root := 1
    let last := h.count
    let h1 := h.swap root last
    let h2 : MaxHeap α := { h1 with count := h1.count - 1 }
    let h3 := h2.sink root
    (some ((h3.get last).element), h3)

/-- JS `count()`: report `_count`; the receiver is untouched. -/
def countQ (h : MaxHeap α) : Nat × MaxHeap α := (h.count, h)

/-- The `for` loop of JS `sort()`: `removeMax()` a fixed number of times. -/
def sortAux (h : MaxHeap α) : Nat → MaxHeap α
  | 0 => h
  | n + 1 => sortAux (removeMax h).2 n

/-- JS `sort()`: call `removeMax()` `_count` times (captured before the
loop), then return the storage array. -/
def sort (h : MaxHeap α) : List (Record α) × MaxHeap α :=
  let h2 := sortAux h h.count
  (h2.storage, h2)

/-- JS static `heapsort(array)`: heapify-construct from the array, `sort()`,
and observe the (in-place sorted) storage array. -/
def heapsort (arr : List (Record α)) : List (Record α) :=
  (sort (fromArray arr)).1

/-- Parent-dominance at node `j` with respect to an explicit live bound `n`:
each child of `j` that is `≤ n` has priority `≤` that of `j`. -/
def childDomN (h : MaxHeap α) (n j : Nat) : Prop :=
  (2 * j ≤ n → (h.get (2 * j)).priority ≤ (h.get j).priority) ∧
  (2 * j + 1 ≤ n → (h.get (2 * j + 1)).priority ≤ (h.get j).priority)

instance (h : MaxHeap α) (n j : Nat) : Decidable (childDomN h n j) :=
  decidable_of_iff
    ((2 * j ≤ n → (h.get (2 * j)).priority ≤ (h.get j).priority) ∧
     (2 * j + 1 ≤ n → (h.get (2 * j + 1)).priority ≤ (h.get j).priority)) Iff.rfl

/-- Parent-dominance at node `j` with the live bound `_count`. -/
def childDom (h : MaxHeap α) (j : Nat) : Prop := childDomN h h.count j

instance (h : MaxHeap α) (j : Nat) : Decidable (childDom h j) :=
  decidable_of_iff (childDomN h h.count j) Iff.rfl

/-- The max-heap property: every live parent dominates its live children. -/
def heapProp (h : MaxHeap α) : Prop := ∀ j, j ≤ h.count → 1 ≤ j → childDom h j

instance (h : MaxHeap α) : Decidable (heapProp h) :=
  decidable_of_iff (∀ j, j ≤ h.count → 1 ≤ j → childDom h j) Iff.rfl

/-- Well-formedness of a heap state: the storage array has exactly
`size + 1` slots, the live region fits, and the heap property holds. -/
def Wf (h : MaxHeap α) : Prop :=
  h.storage.length = h.size + 1 ∧ h.count ≤ h.size ∧ heapProp h

instance (h : MaxHeap α) : Decidable (Wf h) :=
  decidable_of_iff
    (h.storage.length = h.size + 1 ∧ h.count ≤ h.size ∧ heapProp h) Iff.rfl

/-- `j` lies in the subtree rooted at `i` (repeatedly halving `j` reaches `i`). -/
def inSubtree (i j : Nat) : Prop := ∃ k, j / 2 ^ k = i

/-- Heap states reachable by the public API: the two constructors (a
`fromArray` input must be a genuine 1-indexed array, i.e. nonempty),
`insert` (including the failing case, which returns the heap unchanged),
`removeMax`, and `sort`. -/
inductive Reachable : MaxHeap α → Prop
  | empty (s : Nat) : Reachable (emptyHeap s)
  | ofArray (arr : List (Record α)) (hne : 1 ≤ arr.length) : Reachable (fromArray arr)
  | insert_step (h : MaxHeap α) (p : Int) (e : α) :
      Reachable h → Reachable (insert h p e).2
  | remove_step (h : MaxHeap α) : Reachable h → Reachable (removeMax h).2
  | sort_step (h : MaxHeap α) : Reachable h → Reachable (sort h).2

/-- The successive elements returned by `n` calls of `removeMax()`. -/
def drainElems (h : MaxHeap α) : Nat → List (Option α)
  | 0 => []
  | n + 1 => (removeMax h).1 :: drainElems (removeMax h).2 n

/-- The priorities of the records extracted by `n` calls of `removeMax()`
(the extracted record is the root at the time of each call). -/
def drainPrios (h : MaxHeap α) : Nat → List Int
  | 0 => []
  | n + 1 => (h.get 1).priority :: drainPrios (removeMax h).2 n

end MaxHeap

end AdsHeaps

namespace AdsHeaps

namespace MaxHeap

variable {α : Type} [Inhabited α]

/-! ### Basic facts about `getD`, `set`, and `swap` -/

theorem getD_set_eq {β : Type} [Inhabited β] (l : List β) (i : Nat) (a : β)
    (hi : i < l.length) : (l.set i a).getD i default = a := by
  rw [List.getD_eq_getElem?_getD, List.getElem?_set_self hi]
  rfl

theorem getD_set_ne {β : Type} [Inhabited β] (l : List β) (i j : Nat) (a : β)
    (hij : i ≠ j) : (l.set i a).getD j default = l.getD j default := by
  rw [List.getD_eq_getElem?_getD, List.getElem?_set_ne hij,
    ← List.getD_eq_getElem?_getD]

theorem swap_count (h : MaxHeap α) (i j : Nat) : (h.swap i j).count = h.count := rfl

theorem swap_size (h : MaxHeap α) (i j : Nat) : (h.swap i j).size = h.size := rfl

theorem swap_length (h : MaxHeap α) (i j : Nat) :
    (h.swap i j).storage.length = h.storage.length := by
  simp [swap]

theorem swap_get_of_ne (h : MaxHeap α) (i j k : Nat) (hki : k ≠ i) (hkj : k ≠ j) :
    (h.swap i j).get k = h.get k := by
  unfold swap get
  simp only []
  rw [getD_set_ne _ _ _ _ (Ne.symm hkj), getD_set_ne _ _ _ _ (Ne.symm hki)]

theorem swap_get_right (h : MaxHeap α) (i j : Nat) (hj : j < h.storage.length) :
    (h.swap i j).get j = h.get i := by
  unfold swap get
  simp only []
  rw [getD_set_eq]
  simpa using hj

theorem swap_get_left (h : MaxHeap α) (i j : Nat) (hi : i < h.storage.length)
    (hij : i ≠ j) : (h.swap i j).get i = h.get j := by
  unfold swap get
  simp only []
  rw [getD_set_ne _ _ _ _ (Ne.symm hij), getD_set_eq _ _ _ hi]

theorem cons_set_perm {β : Type} [Inhabited β] :
    ∀ (t : List β) (k : Nat) (x : β), k < t.length →
      (t.getD k default :: t.set k x).Perm (x :: t)
  | y :: s, 0, x, _ => by
    simpa using List.Perm.swap x y s
  | y :: s, k + 1, x, hk => by
    have hk' : k < s.length := by simpa using hk
    have ih := cons_set_perm s k x hk'
    have step1 : (s.getD k default :: y :: s.set k x).Perm
        (y :: s.getD k default :: s.set k x) := List.Perm.swap y (s.getD k default) _
    have step2 : (y :: s.getD k default :: s.set k x).Perm (y :: x :: s) :=
      List.Perm.cons y ih
    have step3 : (y :: x :: s).Perm (x :: y :: s) := List.Perm.swap x y s
    simpa using (step1.trans step2).trans step3

theorem set_set_perm {β : Type} [Inhabited β] :
    ∀ (l : List β) (i j : Nat), i < l.length → j < l.length →
      ((l.set i (l.getD j default)).set j (l.getD i default)).Perm l
  | x :: t, 0, 0, _, _ => by simp
  | x :: t, 0, j + 1, _, hj => by
    have hj' : j < t.length := by simpa using hj
    simpa using cons_set_perm t j x hj'
  | x :: t, i + 1, 0, hi, _ => by
    have hi' : i < t.length := by simpa using hi
    simpa using cons_set_perm t i x hi'
  | x :: t, i + 1, j + 1, hi, hj => by
    have hi' : i < t.length := by simpa using hi
    have hj' : j < t.length := by simpa using hj
    simpa using List.Perm.cons x (set_set_perm t i j hi' hj')

theorem swap_perm (h : MaxHeap α) (i j : Nat) (hi : i < h.storage.length)
    (hj : j < h.storage.length) : (h.swap i j).storage.Perm h.storage :=
  set_set_perm h.storage i j hi hj

end MaxHeap

end AdsHeaps

namespace AdsHeaps

namespace MaxHeap

variable {α : Type} [Inhabited α]

/-! ### The swap target chosen by one `_sink` iteration -/

theorem sinkTarget_cases (h : MaxHeap α) (i : Nat) :
    sinkTarget h i = i ∨
      ((sinkTarget h i = 2 * i ∨ sinkTarget h i = 2 * i + 1) ∧
        h.inCountBounds (sinkTarget h i) ∧
        (h.get i).priority < (h.get (sinkTarget h i)).priority) := by
  simp only [sinkTarget, left, right]
  split_ifs with h1 h2 h2
  · exact Or.inr ⟨Or.inr rfl, h2.1, h1.2.trans h2.2⟩
  · exact Or.inr ⟨Or.inl rfl, h1.1, h1.2⟩
  · exact Or.inr ⟨Or.inr rfl, h2.1, h2.2⟩
  · exact Or.inl rfl

theorem sinkTarget_ge_self (h : MaxHeap α) (i : Nat) :
    (h.get i).priority ≤ (h.get (sinkTarget h i)).priority := by
  simp only [sinkTarget, left, right]
  split_ifs with h1 h2 h2
  · exact le_of_lt (lt_trans h1.2 h2.2)
  · exact le_of_lt h1.2
  · exact le_of_lt h2.2
  · exact le_refl _

theorem sinkTarget_ge_left (h : MaxHeap α) (i : Nat) (hl : 2 * i ≤ h.count)
    (hi : 1 ≤ i) : (h.get (2 * i)).priority ≤ (h.get (sinkTarget h i)).priority := by
  have hb : h.inCountBounds (2 * i) := ⟨by omega, hl⟩
  simp only [sinkTarget, left, right]
  split_ifs with h1 h2 h2
  · exact le_of_lt h2.2
  · exact le_refl _
  · have h3 := not_and.mp h1 hb
    have h4 := h2.2
    omega
  · have h3 := not_and.mp h1 hb
    omega

theorem sinkTarget_ge_right (h : MaxHeap α) (i : Nat) (hr : 2 * i + 1 ≤ h.count) :
    (h.get (2 * i + 1)).priority ≤ (h.get (sinkTarget h i)).priority := by
  have hb : h.inCountBounds (2 * i + 1) := ⟨by omega, hr⟩
  simp only [sinkTarget, left, right]
  split_ifs with h1 h2 h2
  · exact le_refl _
  · have := not_and.mp h2 hb
    omega
  · exact le_refl _
  · have := not_and.mp h2 hb
    omega

theorem childDom_of_sinkTarget_self (h : MaxHeap α) (i : Nat) (hi : 1 ≤ i)
    (ht : sinkTarget h i = i) : childDom h i := by
  constructor
  · intro hl
    have := sinkTarget_ge_left h i hl hi
    rw [ht] at this
    have := sinkTarget_ge_self h i
    omega
  · intro hr
    have := sinkTarget_ge_right h i hr
    rw [ht] at this
    omega

/-! ### Subtree membership on 1-based indices -/

theorem inSubtree_self (i : Nat) : inSubtree i i := ⟨0, by simp⟩

theorem inSubtree_le {i j : Nat} (hij : inSubtree i j) : i ≤ j := by
  obtain ⟨k, hk⟩ := hij
  calc i = j / 2 ^ k := hk.symm
    _ ≤ j := Nat.div_le_self _ _

theorem inSubtree_of_child {i m j : Nat} (hm : m = 2 * i ∨ m = 2 * i + 1)
    (hj : inSubtree m j) : inSubtree i j := by
  obtain ⟨k, hk⟩ := hj
  refine ⟨k + 1, ?_⟩
  rw [pow_succ, ← Nat.div_div_eq_div_mul, hk]
  omega

theorem inSubtree_eq_or_ge {m j : Nat} (hj : inSubtree m j) : j = m ∨ 2 * m ≤ j := by
  obtain ⟨k, hk⟩ := hj
  match k with
  | 0 => exact Or.inl (by simpa using hk)
  | k + 1 =>
    right
    have h1 : j / 2 ^ (k + 1) = (j / 2 ^ k) / 2 := by
      rw [Nat.div_div_eq_div_mul, pow_succ]
    have h2 : (j / 2 ^ k) / 2 = m := by rw [← h1, hk]
    have h3 : j / 2 ^ k ≤ j := Nat.div_le_self _ _
    omega

theorem not_inSubtree_sibling {i s m : Nat} (hi : 1 ≤ i)
    (hs : s = 2 * i ∨ s = 2 * i + 1) (hm : m = 2 * i ∨ m = 2 * i + 1)
    (hsm : s ≠ m) : ¬ inSubtree m s := by
  intro hmem
  rcases inSubtree_eq_or_ge hmem with h | h
  · exact hsm h
  · omega

end MaxHeap

end AdsHeaps

namespace AdsHeaps

namespace MaxHeap

variable {α : Type} [Inhabited α]

/-- Master specification of the `_sink` loop, by induction on the fuel.
If every node strictly beyond `i` dominates its children, then after
sinking `i`: the scalar fields are unchanged, the storage is permuted,
slots outside the subtree of `i` (and all dead slots) are untouched, every
node from `i` on dominates its children, the new slot `i` is bounded by any
bound on the old slot `i` and its children, and pointwise upper bounds and
lower-bound witnesses over the live region are preserved. -/
theorem sinkAux_spec (fuel : Nat) :
    ∀ (h : MaxHeap α) (i : Nat), 1 ≤ i → h.count < h.storage.length →
      h.count + 1 ≤ fuel + i → (∀ j, i < j → childDom h j) →
      (sinkAux h i fuel).count = h.count ∧
      (sinkAux h i fuel).size = h.size ∧
      (sinkAux h i fuel).storage.length = h.storage.length ∧
      (sinkAux h i fuel).storage.Perm h.storage ∧
      (∀ j, ¬ inSubtree i j → (sinkAux h i fuel).get j = h.get j) ∧
      (∀ j, h.count < j → (sinkAux h i fuel).get j = h.get j) ∧
      (∀ j, i ≤ j → childDom (sinkAux h i fuel) j) ∧
      (∀ B : Int, (h.get i).priority ≤ B →
        (2 * i ≤ h.count → (h.get (2 * i)).priority ≤ B) →
        (2 * i + 1 ≤ h.count → (h.get (2 * i + 1)).priority ≤ B) →
        ((sinkAux h i fuel).get i).priority ≤ B) ∧
      (∀ B : Int, (∀ k, 1 ≤ k → k ≤ h.count → (h.get k).priority ≤ B) →
        ∀ k, 1 ≤ k → k ≤ h.count → ((sinkAux h i fuel).get k).priority ≤ B) ∧
      (∀ B : Int, (∃ k, 1 ≤ k ∧ k ≤ h.count ∧ B ≤ (h.get k).priority) →
        ∃ k, 1 ≤ k ∧ k ≤ h.count ∧ B ≤ ((sinkAux h i fuel).get k).priority) := by
  induction fuel with
  | zero =>
    intro h i hi hlen hfuel hhyp
    refine ⟨rfl, rfl, rfl, List.Perm.refl _, fun j _ => rfl, fun j _ => rfl, ?_, ?_, ?_, ?_⟩
    · intro j hij
      show childDom h j
      unfold childDom childDomN
      constructor <;> intro hc <;> omega
    · intro B hB _ _
      exact hB
    · intro B hB k hk1 hk2
      exact hB k hk1 hk2
    · intro B hB
      exact hB
  | succ fuel ih =>
    intro h i hi hlen hfuel hhyp
    by_cases hm : sinkTarget h i = i
    · have heq : sinkAux h i (fuel + 1) = h := by
        simp only [sinkAux, hm, if_pos]
      rw [heq]
      refine ⟨rfl, rfl, rfl, List.Perm.refl _, fun j _ => rfl, fun j _ => rfl, ?_, ?_, ?_, ?_⟩
      · intro j hij
        rcases eq_or_lt_of_le hij with heqi | hlti
        · exact heqi ▸ childDom_of_sinkTarget_self h i hi hm
        · exact hhyp j hlti
      · intro B hB _ _
        exact hB
      · intro B hB k hk1 hk2
        exact hB k hk1 hk2
      · intro B hB
        exact hB
    · obtain hcase | ⟨hchild, hmc, hlt⟩ := sinkTarget_cases h i
      · exact absurd hcase hm
      set m := sinkTarget h i with hmdef
      have hmle : m ≤ 2 * i + 1 := by rcases hchild with h' | h' <;> omega
      have him : i < m := by rcases hchild with h' | h' <;> omega
      have hmcount : m ≤ h.count := hmc.2
      have hicount : i ≤ h.count := by omega
      have hilen : i < h.storage.length := by omega
      have hmlen : m < h.storage.length := by omega
      have heq : sinkAux h i (fuel + 1) = sinkAux (h.swap i m) m fuel := by
        simp only [sinkAux, ← hmdef]
        rw [if_neg hm]
      set h' := h.swap i m with h'def
      have hc' : h'.count = h.count := rfl
      have hs' : h'.size = h.size := rfl
      have hl' : h'.storage.length = h.storage.length := swap_length h i m
      have hg_i : h'.get i = h.get m := swap_get_left h i m hilen (by omega)
      have hg_m : h'.get m = h.get i := swap_get_right h i m hmlen
      have hg_other : ∀ k, k ≠ i → k ≠ m → h'.get k = h.get k := fun k hki hkm =>
        swap_get_of_ne h i m k hki hkm
      have hhyp' : ∀ j, m < j → childDom h' j := by
        intro j hj
        have e1 : h'.get j = h.get j := hg_other j (by omega) (by omega)
        have e2 : h'.get (2 * j) = h.get (2 * j) := hg_other _ (by omega) (by omega)
        have e3 : h'.get (2 * j + 1) = h.get (2 * j + 1) := hg_other _ (by omega) (by omega)
        have hd := hhyp j (by omega)
        unfold childDom childDomN at hd ⊢
        rw [hc', e1, e2, e3]
        exact hd
      have ihres := ih h' m (by omega) (by rw [hc', hl']; exact hlen)
        (by rw [hc']; omega) hhyp'
      obtain ⟨ic, isz, ilen, iperm, iframe, ihigh, idom, ibound, iball, iex⟩ := ihres
      rw [heq]
      have hRic : (sinkAux h' m fuel).count = h.count := by rw [ic, hc']
      have hRi : (sinkAux h' m fuel).get i = h.get m := by
        have hni : ¬ inSubtree m i := fun hmem => absurd (inSubtree_le hmem) (by omega)
        rw [iframe i hni, hg_i]
      have hdm := hhyp m him
      have hRm : ((sinkAux h' m fuel).get m).priority ≤ (h.get m).priority := by
        apply ibound (h.get m).priority
        · rw [hg_m]
          exact le_of_lt hlt
        · intro hc2
          rw [hc'] at hc2
          rw [hg_other _ (by omega) (by omega)]
          exact hdm.1 hc2
        · intro hc2
          rw [hc'] at hc2
          rw [hg_other _ (by omega) (by omega)]
          exact hdm.2 hc2
      have hdomi : childDom (sinkAux h' m fuel) i := by
        unfold childDom childDomN
        constructor
        · intro hc2
          rw [hRic] at hc2
          rw [hRi]
          by_cases hcm : 2 * i = m
          · rw [hcm]
            exact hRm
          · have hns : ¬ inSubtree m (2 * i) :=
              not_inSubtree_sibling hi (Or.inl rfl) hchild hcm
            rw [iframe _ hns, hg_other _ (by omega) hcm]
            exact sinkTarget_ge_left h i hc2 hi
        · intro hc2
          rw [hRic] at hc2
          rw [hRi]
          by_cases hcm : 2 * i + 1 = m
          · rw [hcm]
            exact hRm
          · have hns : ¬ inSubtree m (2 * i + 1) :=
              not_inSubtree_sibling hi (Or.inr rfl) hchild hcm
            rw [iframe _ hns, hg_other _ (by omega) hcm]
            exact sinkTarget_ge_right h i hc2
      have hdom_mid : ∀ j, i < j → j < m → childDom (sinkAux h' m fuel) j := by
        intro j hij hjm
        have e1 : (sinkAux h' m fuel).get j = h.get j := by
          have h1 : ¬ inSubtree m j := fun hmem => absurd (inSubtree_le hmem) (by omega)
          rw [iframe j h1, hg_other j (by omega) (by omega)]
        have e2 : (sinkAux h' m fuel).get (2 * j) = h.get (2 * j) := by
          have h1 : ¬ inSubtree m (2 * j) := by
            intro hmem
            rcases inSubtree_eq_or_ge hmem with he | hge <;> omega
          rw [iframe _ h1, hg_other _ (by omega) (by omega)]
        have e3 : (sinkAux h' m fuel).get (2 * j + 1) = h.get (2 * j + 1) := by
          have h1 : ¬ inSubtree m (2 * j + 1) := by
            intro hmem
            rcases inSubtree_eq_or_ge hmem with he | hge <;> omega
          rw [iframe _ h1, hg_other _ (by omega) (by omega)]
        have hd := hhyp j hij
        unfold childDom childDomN at hd ⊢
        rw [hRic, e1, e2, e3]
        exact hd
      refine ⟨hRic, by rw [isz, hs'], by rw [ilen, hl'],
        iperm.trans (swap_perm h i m hilen hmlen), ?_, ?_, ?_, ?_, ?_, ?_⟩
      · intro j hj
        have hjm : ¬ inSubtree m j := fun hmem => hj (inSubtree_of_child hchild hmem)
        have hji : j ≠ i := fun e => hj (e ▸ inSubtree_self i)
        have hjm' : j ≠ m := fun e =>
          hj (e ▸ inSubtree_of_child hchild (inSubtree_self m))
        rw [iframe j hjm, hg_other j hji hjm']
      · intro j hj
        rw [ihigh j (by rw [hc']; omega), hg_other j (by omega) (by omega)]
      · intro j hij
        rcases lt_trichotomy j m with hlt' | heq' | hgt'
        · rcases eq_or_lt_of_le hij with heqi | hlti
          · exact heqi ▸ hdomi
          · exact hdom_mid j hlti hlt'
        · exact heq' ▸ idom m (le_refl m)
        · exact idom j (by omega)
      · intro B hB1 hB2 hB3
        rw [hRi]
        rcases hchild with h' | h'
        · rw [h']
          exact hB2 (h' ▸ hmcount)
        · rw [h']
          exact hB3 (h' ▸ hmcount)
      · intro B hB k hk1 hk2
        have hball' : ∀ k', 1 ≤ k' → k' ≤ h'.count → (h'.get k').priority ≤ B := by
          intro k' hk1' hk2'
          rw [hc'] at hk2'
          by_cases hki : k' = i
          · subst hki
            rw [hg_i]
            exact hB m (by omega) hmcount
          · by_cases hkm : k' = m
            · subst hkm
              rw [hg_m]
              exact hB i hi hicount
            · rw [hg_other k' hki hkm]
              exact hB k' hk1' hk2'
        exact iball B hball' k hk1 (by rw [hc']; exact hk2)
      · intro B hB
        obtain ⟨k, hk1, hk2, hk3⟩ := hB
        have hex' : ∃ k', 1 ≤ k' ∧ k' ≤ h'.count ∧ B ≤ (h'.get k').priority := by
          by_cases hki : k = i
          · refine ⟨m, by omega, by rw [hc']; exact hmcount, ?_⟩
            rw [hg_m]
            exact hki ▸ hk3
          · by_cases hkm : k = m
            · refine ⟨i, hi, by rw [hc']; exact hicount, ?_⟩
              rw [hg_i]
              exact hkm ▸ hk3
            · exact ⟨k, hk1, by rw [hc']; exact hk2, by rw [hg_other k hki hkm]; exact hk3⟩
        obtain ⟨k', a, b, c⟩ := iex B hex'
        exact ⟨k', a, by rw [hc'] at b; exact b, c⟩

end MaxHeap

end AdsHeaps

namespace AdsHeaps

namespace MaxHeap

variable {α : Type} [Inhabited α]

/-- `sink_spec`: the master `_sink` loop specification at the fuel
`_count + 1` that `sink` actually uses. -/
theorem sink_spec (h : MaxHeap α) (i : Nat) (hi : 1 ≤ i)
    (hlen : h.count < h.storage.length) (hhyp : ∀ j, i < j → childDom h j) :
    (h.sink i).count = h.count ∧
    (h.sink i).size = h.size ∧
    (h.sink i).storage.length = h.storage.length ∧
    (h.sink i).storage.Perm h.storage ∧
    (∀ j, ¬ inSubtree i j → (h.sink i).get j = h.get j) ∧
    (∀ j, h.count < j → (h.sink i).get j = h.get j) ∧
    (∀ j, i ≤ j → childDom (h.sink i) j) ∧
    (∀ B : Int, (h.get i).priority ≤ B →
      (2 * i ≤ h.count → (h.get (2 * i)).priority ≤ B) →
      (2 * i + 1 ≤ h.count → (h.get (2 * i + 1)).priority ≤ B) →
      ((h.sink i).get i).priority ≤ B) ∧
    (∀ B : Int, (∀ k, 1 ≤ k → k ≤ h.count → (h.get k).priority ≤ B) →
      ∀ k, 1 ≤ k → k ≤ h.count → ((h.sink i).get k).priority ≤ B) ∧
    (∀ B : Int, (∃ k, 1 ≤ k ∧ k ≤ h.count ∧ B ≤ (h.get k).priority) →
      ∃ k, 1 ≤ k ∧ k ≤ h.count ∧ B ≤ ((h.sink i).get k).priority) := by
  unfold sink
  exact sinkAux_spec (h.count + 1) h i hi hlen (by omega) hhyp

/-- In a heap satisfying the heap property, the root has the greatest
priority of the live region (follow the parent chain). -/
theorem le_root_of_heapProp (h : MaxHeap α) (hp : heapProp h) :
    ∀ j, 1 ≤ j → j ≤ h.count → (h.get j).priority ≤ (h.get 1).priority := by
  intro j
  induction j using Nat.strong_induction_on with
  | _ j ihj =>
    intro hj1 hjc
    rcases eq_or_lt_of_le hj1 with he | hgt
    · rw [← he]
    · have hp2 : j / 2 < j := by omega
      have hp1 : 1 ≤ j / 2 := by omega
      have hpc : j / 2 ≤ h.count := by omega
      have hd := hp (j / 2) hpc hp1
      have hchild : j = 2 * (j / 2) ∨ j = 2 * (j / 2) + 1 := by omega
      have hle : (h.get j).priority ≤ (h.get (j / 2)).priority := by
        rcases hchild with hc | hc
        · have h2 := hd.1 (by omega)
          rw [← hc] at h2
          exact h2
        · have h2 := hd.2 (by omega)
          rw [← hc] at h2
          exact h2
      exact le_trans hle (ihj (j / 2) hp2 hp1 hpc)

/-- Nodes strictly beyond `⌊count / 2⌋` have no live children, so they
dominate their children vacuously. -/
theorem childDom_above_half (h : MaxHeap α) : ∀ j, h.count / 2 < j → childDom h j := by
  intro j hj
  unfold childDom childDomN
  constructor <;> intro hc <;> omega

/-- Specification of the `_buildheap` loop: sinking from `i` down to 1
establishes parent dominance everywhere, given it already holds above `i`. -/
theorem buildheapAux_spec :
    ∀ (i : Nat) (h : MaxHeap α), h.count < h.storage.length →
      (∀ j, i < j → childDom h j) →
      (buildheapAux h i).count = h.count ∧
      (buildheapAux h i).size = h.size ∧
      (buildheapAux h i).storage.length = h.storage.length ∧
      (buildheapAux h i).storage.Perm h.storage ∧
      (buildheapAux h i).get 0 = h.get 0 ∧
      (∀ j, 1 ≤ j → childDom (buildheapAux h i) j) ∧
      (∀ B : Int, (∃ k, 1 ≤ k ∧ k ≤ h.count ∧ B ≤ (h.get k).priority) →
        ∃ k, 1 ≤ k ∧ k ≤ h.count ∧ B ≤ ((buildheapAux h i).get k).priority)
  | 0, h, hlen, hhyp =>
    ⟨rfl, rfl, rfl, List.Perm.refl _, rfl, fun j hj => hhyp j hj, fun _ hB => hB⟩
  | i + 1, h, hlen, hhyp => by
    obtain ⟨sc, ssz, slen, sperm, sframe, shigh, sdom, sbound, sball, sex⟩ :=
      sink_spec h (i + 1) (by omega) hlen hhyp
    obtain ⟨bc, bsz, blen, bperm, b0, bdom, bex⟩ :=
      buildheapAux_spec i (h.sink (i + 1)) (by rw [sc, slen]; exact hlen)
        (fun j hj => sdom j (by omega))
    simp only [buildheapAux]
    refine ⟨by rw [bc, sc], by rw [bsz, ssz], by rw [blen, slen],
      bperm.trans sperm, ?_, bdom, ?_⟩
    · rw [b0, sframe 0 (fun hmem => by have := inSubtree_le hmem; omega)]
    · intro B hB
      obtain ⟨k, a, b, c⟩ := sex B hB
      obtain ⟨k', a', b', c'⟩ := bex B ⟨k, a, by rw [sc]; exact b, c⟩
      exact ⟨k', a', by rw [sc] at b'; exact b', c'⟩

/-- The heapify constructor produces a well-formed heap whose fields,
storage permutation class, sentinel, and live lower-bound witnesses relate
back to the adopted array. -/
theorem fromArray_spec (arr : List (Record α)) (hne : 1 ≤ arr.length) :
    Wf (fromArray arr) ∧
    (fromArray arr).count = arr.length - 1 ∧
    (fromArray arr).size = arr.length - 1 ∧
    (fromArray arr).storage.length = arr.length ∧
    (fromArray arr).storage.Perm arr ∧
    (fromArray arr).get 0 = arr.getD 0 default ∧
    (∀ B : Int, (∃ k, 1 ≤ k ∧ k ≤ arr.length - 1 ∧ B ≤ (arr.getD k default).priority) →
      ∃ k, 1 ≤ k ∧ k ≤ arr.length - 1 ∧ B ≤ ((fromArray arr).get k).priority) := by
  have hlen0 : (({ storage := arr, size := arr.length - 1, count := arr.length - 1 } :
      MaxHeap α)).count < arr.length := by
    simp only []
    omega
  obtain ⟨bc, bsz, blen, bperm, b0, bdom, bex⟩ :=
    buildheapAux_spec ((arr.length - 1) / 2)
      { storage := arr, size := arr.length - 1, count := arr.length - 1 }
      hlen0 (fun j hj => childDom_above_half
        { storage := arr, size := arr.length - 1, count := arr.length - 1 } j hj)
  simp only [fromArray, buildheap]
  refine ⟨⟨?_, ?_, ?_⟩, ?_, ?_, ?_, bperm, b0, bex⟩
  · rw [blen, bsz]
    show arr.length = arr.length - 1 + 1
    omega
  · rw [bc, bsz]
  · intro j _ hj1
    exact bdom j hj1
  · rw [bc]
  · rw [bsz]
  · rw [blen]

end MaxHeap

end AdsHeaps

namespace AdsHeaps

namespace MaxHeap

variable {α : Type} [Inhabited α]

/-- Master specification of the `_float` loop, by induction on the fuel.
`n` is the intended live bound (`_count + 1` at the `insert` call site; the
loop itself only consults `_inSizeBounds`).  If parent dominance holds for
every edge except possibly the one into `i`, and the children of `i` are
already dominated by the parent of `i`, then after floating `i` parent
dominance holds everywhere below `n`. -/
theorem floatAux_spec :
    ∀ (fuel : Nat) (h : MaxHeap α) (i n : Nat), 1 ≤ i → i ≤ n → n ≤ h.size →
      n < h.storage.length → i ≤ fuel →
      (∀ j c, 1 ≤ j → (c = 2 * j ∨ c = 2 * j + 1) → c ≤ n → c ≠ i →
        (h.get c).priority ≤ (h.get j).priority) →
      (∀ c, (c = 2 * i ∨ c = 2 * i + 1) → c ≤ n → 2 ≤ i →
        (h.get c).priority ≤ (h.get (parent i)).priority) →
      (floatAux h i fuel).count = h.count ∧
      (floatAux h i fuel).size = h.size ∧
      (floatAux h i fuel).storage.length = h.storage.length ∧
      (floatAux h i fuel).storage.Perm h.storage ∧
      (∀ j, 1 ≤ j → childDomN (floatAux h i fuel) n j) := by
  intro fuel
  induction fuel with
  | zero =>
    intro h i n hi hin hsize hlen hfuel hE hG
    omega
  | succ fuel ih =>
    intro h i n hi hin hsize hlen hfuel hE hG
    have hp2 : parent i = i / 2 := rfl
    by_cases hguard :
        h.inSizeBounds (parent i) ∧ (h.get (parent i)).priority < (h.get i).priority
    · have heq : floatAux h i (fuel + 1) = floatAux (h.swap i (parent i)) (parent i) fuel := by
        simp only [floatAux]
        rw [if_pos hguard]
      have hpge : 1 ≤ parent i := hguard.1.1
      have hi2 : 2 ≤ i := by omega
      have hpi : parent i < i := by omega
      have hilen : i < h.storage.length := by omega
      have hplen : parent i < h.storage.length := by omega
      have hg_i : (h.swap i (parent i)).get i = h.get (parent i) :=
        swap_get_left h i (parent i) hilen (by omega)
      have hg_p : (h.swap i (parent i)).get (parent i) = h.get i :=
        swap_get_right h i (parent i) hplen
      have hg_other : ∀ k, k ≠ i → k ≠ parent i →
          (h.swap i (parent i)).get k = h.get k := fun k hki hkp =>
        swap_get_of_ne h i (parent i) k hki hkp
      have hichild : i = 2 * parent i ∨ i = 2 * parent i + 1 := by omega
      have hE' : ∀ j c, 1 ≤ j → (c = 2 * j ∨ c = 2 * j + 1) → c ≤ n → c ≠ parent i →
          ((h.swap i (parent i)).get c).priority ≤
            ((h.swap i (parent i)).get j).priority := by
        intro j c hj1 hcj hcn hcp
        by_cases hci : c = i
        · subst hci
          have hjp : j = parent c := by omega
          rw [hjp, hg_p]
          rw [show (h.swap c (parent c)).get c = h.get (parent c) from hg_i]
          exact le_of_lt hguard.2
        · have ec : (h.swap i (parent i)).get c = h.get c := hg_other c hci hcp
          by_cases hjp : j = parent i
          · subst hjp
            rw [ec, hg_p]
            have h1 : (h.get c).priority ≤ (h.get (parent i)).priority :=
              hE (parent i) c hj1 hcj hcn hci
            exact le_trans h1 (le_of_lt hguard.2)
          · by_cases hji : j = i
            · subst hji
              rw [ec, hg_i]
              exact hG c hcj hcn hi2
            · rw [ec, hg_other j hji hjp]
              exact hE j c hj1 hcj hcn hci
      have hG' : ∀ c, (c = 2 * parent i ∨ c = 2 * parent i + 1) → c ≤ n →
          2 ≤ parent i →
          ((h.swap i (parent i)).get c).priority ≤
            ((h.swap i (parent i)).get (parent (parent i))).priority := by
        intro c hc hcn hp2le
        have e1 : parent (parent i) = parent i / 2 := rfl
        have hpplt : parent (parent i) < parent i := by rw [e1]; omega
        have hpp1 : 1 ≤ parent (parent i) := by rw [e1]; omega
        have hppchild : parent i = 2 * parent (parent i) ∨
            parent i = 2 * parent (parent i) + 1 := by
          rw [e1]
          omega
        have hcnep : c ≠ parent i := by rcases hc with h' | h' <;> omega
        have hgp : (h.swap i (parent i)).get (parent (parent i)) =
            h.get (parent (parent i)) := hg_other _ (by omega) (by omega)
        have hedge : (h.get (parent i)).priority ≤ (h.get (parent (parent i))).priority :=
          hE (parent (parent i)) (parent i) hpp1 hppchild (by omega) (by omega)
        by_cases hci : c = i
        · subst hci
          rw [hgp, hg_i]
          exact hedge
        · rw [hgp, hg_other c hci hcnep]
          have h1 : (h.get c).priority ≤ (h.get (parent i)).priority :=
            hE (parent i) c (by omega) hc hcn hci
          exact le_trans h1 hedge
      obtain ⟨fc, fsz, flen, fperm, fdom⟩ :=
        ih (h.swap i (parent i)) (parent i) n hpge (by omega)
          (by rw [swap_size]; exact hsize) (by rw [swap_length]; exact hlen)
          (by omega) hE' hG'
      rw [heq]
      refine ⟨by rw [fc, swap_count], by rw [fsz, swap_size],
        by rw [flen, swap_length],
        fperm.trans (swap_perm h i (parent i) hilen hplen), fdom⟩
    · have heq : floatAux h i (fuel + 1) = h := by
        simp only [floatAux]
        rw [if_neg hguard]
      rw [heq]
      refine ⟨rfl, rfl, rfl, List.Perm.refl _, ?_⟩
      intro j hj1
      constructor
      · intro hcn
        by_cases hci : 2 * j = i
        · have hi2 : 2 ≤ i := by omega
          have hpb : h.inSizeBounds (parent i) := ⟨by rw [hp2]; omega, by rw [hp2]; omega⟩
          have hnlt : ¬ (h.get (parent i)).priority < (h.get i).priority := by
            intro hlt2
            exact hguard ⟨hpb, hlt2⟩
          have hjp : j = parent i := by rw [hp2]; omega
          rw [hci, hjp]
          omega
        · exact hE j (2 * j) hj1 (Or.inl rfl) hcn hci
      · intro hcn
        by_cases hci : 2 * j + 1 = i
        · have hi2 : 2 ≤ i := by omega
          have hpb : h.inSizeBounds (parent i) := ⟨by rw [hp2]; omega, by rw [hp2]; omega⟩
          have hnlt : ¬ (h.get (parent i)).priority < (h.get i).priority := by
            intro hlt2
            exact hguard ⟨hpb, hlt2⟩
          have hjp : j = parent i := by rw [hp2]; omega
          rw [hci, hjp]
          omega
        · exact hE j (2 * j + 1) hj1 (Or.inr rfl) hcn hci

end MaxHeap

end AdsHeaps

namespace AdsHeaps

namespace MaxHeap

variable {α : Type} [Inhabited α]

/-- Unfold a heap-property goal through a final `_count` update. -/
theorem heapProp_of_count_eq (h2 : MaxHeap α) (n : Nat) (hc : h2.count = n)
    (hdom : ∀ j, 1 ≤ j → childDomN h2 n j) : heapProp h2 := by
  intro j _ hj1
  unfold childDom
  rw [hc]
  exact hdom j hj1

/-- `insert` on a non-full heap: the success branch, written out. -/
theorem insert_eq_ok (h : MaxHeap α) (p : Int) (e : α)
    (hcond : h.inSizeBounds (h.count + 1)) :
    insert h p e = (Except.ok (),
      { float { h with storage := h.storage.set (h.count + 1) ⟨p, e⟩ } (h.count + 1) with
        count := (float { h with storage := h.storage.set (h.count + 1) ⟨p, e⟩ }
          (h.count + 1)).count + 1 }) := by
  simp only [insert]
  rw [if_pos hcond]

/-- `insert` on a full heap: the failure branch, written out. -/
theorem insert_eq_error (h : MaxHeap α) (p : Int) (e : α)
    (hcond : ¬ h.inSizeBounds (h.count + 1)) :
    insert h p e = (Except.error "Heap is full!", h) := by
  simp only [insert]
  rw [if_neg hcond]

/-- Specification of a successful `insert`: it succeeds exactly on a
non-full well-formed heap, bumps `_count` by one, keeps the scalar fields
and the storage length, and restores the heap property. -/
theorem insert_ok_spec (h : MaxHeap α) (p : Int) (e : α) (hwf : Wf h)
    (hroom : h.count < h.size) :
    (insert h p e).1 = Except.ok () ∧
    (insert h p e).2.count = h.count + 1 ∧
    (insert h p e).2.size = h.size ∧
    (insert h p e).2.storage.length = h.storage.length ∧
    Wf (insert h p e).2 := by
  obtain ⟨hlen, hcnt, hprop⟩ := hwf
  have hcond : h.inSizeBounds (h.count + 1) := ⟨by omega, by omega⟩
  rw [insert_eq_ok h p e hcond]
  set h1 : MaxHeap α := { h with storage := h.storage.set (h.count + 1) ⟨p, e⟩ } with h1def
  have h1c : h1.count = h.count := rfl
  have h1s : h1.size = h.size := rfl
  have h1len : h1.storage.length = h.storage.length := List.length_set _ _ _
  have h1get : ∀ c, c ≠ h.count + 1 → h1.get c = h.get c := fun c hc =>
    getD_set_ne h.storage (h.count + 1) c _ (fun e2 => hc e2.symm)
  have hE1 : ∀ j c, 1 ≤ j → (c = 2 * j ∨ c = 2 * j + 1) → c ≤ h.count + 1 →
      c ≠ h.count + 1 → (h1.get c).priority ≤ (h1.get j).priority := by
    intro j c hj1 hcj hcn hci
    have hcc : c ≤ h.count := by omega
    have hjc : j ≠ h.count + 1 := by omega
    rw [h1get c hci, h1get j hjc]
    have hd := hprop j (by omega) hj1
    rcases hcj with hc | hc
    · subst hc
      exact hd.1 hcc
    · subst hc
      exact hd.2 hcc
  have hG1 : ∀ c, (c = 2 * (h.count + 1) ∨ c = 2 * (h.count + 1) + 1) →
      c ≤ h.count + 1 → 2 ≤ h.count + 1 →
      (h1.get c).priority ≤ (h1.get (parent (h.count + 1))).priority := by
    intro c hc hcn _
    rcases hc with hc | hc <;> omega
  obtain ⟨fc, fsz, flen, fperm, fdom⟩ :=
    floatAux_spec (h.count + 1) h1 (h.count + 1) (h.count + 1) (by omega) (le_refl _)
      (by rw [h1s]; omega) (by rw [h1len, hlen]; omega) (le_refl _) hE1 hG1
  refine ⟨rfl, ?_, ?_, ?_, ?_, ?_, ?_⟩
  · show (floatAux h1 (h.count + 1) (h.count + 1)).count + 1 = h.count + 1
    rw [fc]
  · show (floatAux h1 (h.count + 1) (h.count + 1)).size = h.size
    rw [fsz]
  · show (floatAux h1 (h.count + 1) (h.count + 1)).storage.length = h.storage.length
    rw [flen]
    exact h1len
  · show (floatAux h1 (h.count + 1) (h.count + 1)).storage.length =
      (floatAux h1 (h.count + 1) (h.count + 1)).size + 1
    rw [flen, fsz, h1len, h1s]
    exact hlen
  · show (floatAux h1 (h.count + 1) (h.count + 1)).count + 1 ≤
      (floatAux h1 (h.count + 1) (h.count + 1)).size
    rw [fc, fsz]
    show h.count + 1 ≤ h.size
    omega
  · apply heapProp_of_count_eq _ (h.count + 1)
    · show (floatAux h1 (h.count + 1) (h.count + 1)).count + 1 = h.count + 1
      rw [fc]
    · intro j hj1
      exact fdom j hj1

end MaxHeap

end AdsHeaps

namespace AdsHeaps

namespace MaxHeap

variable {α : Type} [Inhabited α]

/-- `removeMax` on a nonempty heap: the main branch, written out. -/
theorem removeMax_eq_pos (h : MaxHeap α) (hne : ¬ h.count = 0) :
    removeMax h =
      (some ((({ h.swap 1 h.count with count := (h.swap 1 h.count).count - 1 }
          : MaxHeap α).sink 1).get h.count).element,
        ({ h.swap 1 h.count with count := (h.swap 1 h.count).count - 1 }
          : MaxHeap α).sink 1) := by
  simp only [removeMax]
  rw [if_neg hne]

/-- Specification of `removeMax` on a nonempty well-formed heap: it returns
the root element, decrements `_count`, permutes the storage, parks the old
root record at the old `_count` slot, leaves the sentinel and all dead
slots beyond untouched, keeps every remaining live priority at most the
extracted one, and restores the heap property. -/
theorem removeMax_spec (h : MaxHeap α) (hwf : Wf h) (hne : 0 < h.count) :
    (removeMax h).1 = some ((h.get 1).element) ∧
    (removeMax h).2.count = h.count - 1 ∧
    (removeMax h).2.size = h.size ∧
    (removeMax h).2.storage.length = h.storage.length ∧
    (removeMax h).2.storage.Perm h.storage ∧
    (removeMax h).2.get h.count = h.get 1 ∧
    (∀ j, h.count < j → (removeMax h).2.get j = h.get j) ∧
    (removeMax h).2.get 0 = h.get 0 ∧
    (∀ k, 1 ≤ k → k ≤ h.count - 1 →
      ((removeMax h).2.get k).priority ≤ (h.get 1).priority) ∧
    Wf (removeMax h).2 := by
  obtain ⟨hlen, hcnt, hprop⟩ := hwf
  have hclen : h.count < h.storage.length := by omega
  have h1len : (1 : Nat) < h.storage.length := by omega
  rw [removeMax_eq_pos h (by omega)]
  set H2 : MaxHeap α :=
    { h.swap 1 h.count with count := (h.swap 1 h.count).count - 1 } with H2def
  have hc2 : H2.count = h.count - 1 := rfl
  have hs2 : H2.size = h.size := rfl
  have hl2 : H2.storage.length = h.storage.length := swap_length h 1 h.count
  have hg2_last : H2.get h.count = h.get 1 := swap_get_right h 1 h.count hclen
  have hg2_other : ∀ k, k ≠ 1 → k ≠ h.count → H2.get k = h.get k := fun k hk1 hkc =>
    swap_get_of_ne h 1 h.count k hk1 hkc
  have hroot := le_root_of_heapProp h hprop
  have hball2 : ∀ k, 1 ≤ k → k ≤ H2.count →
      (H2.get k).priority ≤ (h.get 1).priority := by
    intro k hk1 hk2
    rw [hc2] at hk2
    by_cases hk1' : k = 1
    · subst hk1'
      have hcne : (1 : Nat) ≠ h.count := by omega
      have : H2.get 1 = h.get h.count := swap_get_left h 1 h.count h1len hcne
      rw [this]
      exact hroot h.count (by omega) (le_refl _)
    · rw [hg2_other k hk1' (by omega)]
      exact hroot k hk1 (by omega)
  have hhyp2 : ∀ j, 1 < j → childDom H2 j := by
    intro j hj
    unfold childDom childDomN
    rw [hc2]
    constructor
    · intro hcj
      rw [hg2_other j (by omega) (by omega), hg2_other (2 * j) (by omega) (by omega)]
      exact (hprop j (by omega) (by omega)).1 (by omega)
    · intro hcj
      rw [hg2_other j (by omega) (by omega), hg2_other (2 * j + 1) (by omega) (by omega)]
      exact (hprop j (by omega) (by omega)).2 (by omega)
  obtain ⟨sc, ssz, slen, sperm, sframe, shigh, sdom, sbound, sball, sex⟩ :=
    sink_spec H2 1 (le_refl _) (by rw [hc2, hl2]; omega) hhyp2
  have hc3 : (H2.sink 1).count = h.count - 1 := by rw [sc, hc2]
  have hg3_last : (H2.sink 1).get h.count = h.get 1 := by
    rw [shigh h.count (by rw [hc2]; omega), hg2_last]
  refine ⟨by rw [hg3_last], hc3, by rw [ssz, hs2], by rw [slen, hl2],
    sperm.trans (swap_perm h 1 h.count h1len hclen), hg3_last, ?_, ?_, ?_, ?_, ?_, ?_⟩
  · intro j hj
    rw [shigh j (by rw [hc2]; omega), hg2_other j (by omega) (by omega)]
  · have h0 : ¬ inSubtree 1 0 := fun hmem => by
      have := inSubtree_le hmem
      omega
    rw [sframe 0 h0, hg2_other 0 (by omega) (by omega)]
  · intro k hk1 hk2
    exact sball (h.get 1).priority hball2 k hk1 (by rw [hc2]; omega)
  · rw [slen, hl2, ssz, hs2]
    exact hlen
  · rw [hc3, ssz, hs2]
    omega
  · intro j _ hj1
    exact sdom j hj1

end MaxHeap

end AdsHeaps

namespace AdsHeaps

namespace MaxHeap

variable {α : Type} [Inhabited α]

/-- `_sink` never touches `_count`, regardless of well-formedness. -/
theorem sinkAux_count_eq :
    ∀ (fuel : Nat) (h : MaxHeap α) (i : Nat), (sinkAux h i fuel).count = h.count
  | 0, _, _ => rfl
  | fuel + 1, h, i => by
    simp only [sinkAux]
    split_ifs with hm
    · rfl
    · rw [sinkAux_count_eq fuel (h.swap i (sinkTarget h i)) (sinkTarget h i)]
      rfl

/-- `removeMax` on an empty heap returns the empty indicator and the heap
unchanged. -/
theorem removeMax_eq_empty (h : MaxHeap α) (h0 : h.count = 0) :
    removeMax h = (none, h) := by
  simp only [removeMax]
  rw [if_pos h0]

/-- `removeMax` on a nonempty heap decrements `_count` by exactly one,
regardless of well-formedness. -/
theorem removeMax_count_pos (h : MaxHeap α) (hne : 0 < h.count) :
    (removeMax h).2.count = h.count - 1 := by
  rw [removeMax_eq_pos h (by omega)]
  show ((({ h.swap 1 h.count with count := (h.swap 1 h.count).count - 1 }
    : MaxHeap α)).sink 1).count = h.count - 1
  unfold sink
  rw [sinkAux_count_eq]
  rfl

/-- The `sort()` loop drains `_count` to zero, regardless of
well-formedness. -/
theorem sortAux_count_eq :
    ∀ (n : Nat) (h : MaxHeap α), h.count = n → (sortAux h n).count = 0
  | 0, h, hc => hc
  | n + 1, h, hc => by
    simp only [sortAux]
    apply sortAux_count_eq n
    rw [removeMax_count_pos h (by omega), hc]
    omega

/-- Specification of the `sort()` loop on a well-formed heap with `n` live
records: it drains the heap, permutes the storage, leaves the sentinel and
dead slots untouched, and leaves the previously live region sorted in
non-decreasing priority order, bounded by the old maximum. -/
theorem sortAux_spec :
    ∀ (n : Nat) (h : MaxHeap α), Wf h → h.count = n →
      (sortAux h n).count = 0 ∧
      (sortAux h n).size = h.size ∧
      (sortAux h n).storage.length = h.storage.length ∧
      (sortAux h n).storage.Perm h.storage ∧
      (∀ j, h.count < j → (sortAux h n).get j = h.get j) ∧
      (sortAux h n).get 0 = h.get 0 ∧
      (∀ k k', 1 ≤ k → k ≤ k' → k' ≤ h.count →
        ((sortAux h n).get k).priority ≤ ((sortAux h n).get k').priority) ∧
      (∀ k, 1 ≤ k → k ≤ h.count → ((sortAux h n).get k).priority ≤ (h.get 1).priority)
  | 0, h, _, hc => by
    refine ⟨hc, rfl, rfl, List.Perm.refl _, fun j _ => rfl, rfl, ?_, ?_⟩
    · intro k k' hk1 hkk' hk'c
      omega
    · intro k hk1 hkc
      omega
  | n + 1, h, hwf, hc => by
    obtain ⟨r1, rc, rsz, rlen, rperm, rlast, rhigh, r0, rball, rwf⟩ :=
      removeMax_spec h hwf (by omega)
    have hcc : (removeMax h).2.count = n := by
      rw [rc, hc]
      omega
    obtain ⟨ic0, isz, ilen, iperm, ihigh, i0, isort, ibound⟩ :=
      sortAux_spec n (removeMax h).2 rwf hcc
    simp only [sortAux]
    have hlast : (sortAux (removeMax h).2 n).get h.count = h.get 1 := by
      rw [ihigh h.count (by omega), rlast]
    refine ⟨ic0, by rw [isz, rsz], by rw [ilen, rlen], iperm.trans rperm, ?_, ?_, ?_, ?_⟩
    · intro j hj
      rw [ihigh j (by omega), rhigh j hj]
    · rw [i0, r0]
    · intro k k' hk1 hkk' hk'c
      by_cases hk'top : k' = h.count
      · subst hk'top
        by_cases hktop : k = h.count
        · rw [hktop]
        · rw [hlast]
          have h1 : ((sortAux (removeMax h).2 n).get k).priority ≤
              ((removeMax h).2.get 1).priority := ibound k hk1 (by omega)
          have h2 : ((removeMax h).2.get 1).priority ≤ (h.get 1).priority :=
            rball 1 (le_refl _) (by omega)
          exact le_trans h1 h2
      · exact isort k k' hk1 hkk' (by omega)
    · intro k hk1 hkc
      by_cases hktop : k = h.count
      · subst hktop
        rw [hlast]
      · have h1 : ((sortAux (removeMax h).2 n).get k).priority ≤
            ((removeMax h).2.get 1).priority := ibound k hk1 (by omega)
        have h2 : ((removeMax h).2.get 1).priority ≤ (h.get 1).priority :=
          rball 1 (le_refl _) (by omega)
        exact le_trans h1 h2

end MaxHeap

end AdsHeaps

namespace AdsHeaps

namespace MaxHeap

variable {α : Type} [Inhabited α]

/-! ### Unconditional frame facts and well-formedness preservation -/

/-- `_float` never touches `_count`, `size`, or the storage length. -/
theorem floatAux_frame :
    ∀ (fuel : Nat) (h : MaxHeap α) (i : Nat),
      (floatAux h i fuel).count = h.count ∧ (floatAux h i fuel).size = h.size ∧
      (floatAux h i fuel).storage.length = h.storage.length
  | 0, _, _ => ⟨rfl, rfl, rfl⟩
  | fuel + 1, h, i => by
    simp only [floatAux]
    split_ifs with hg
    · obtain ⟨a, b, c⟩ := floatAux_frame fuel (h.swap i (parent i)) (parent i)
      exact ⟨a.trans (swap_count h i (parent i)), b.trans (swap_size h i (parent i)),
        c.trans (swap_length h i (parent i))⟩
    · exact ⟨rfl, rfl, rfl⟩

/-- `_sink` never touches `size` or the storage length. -/
theorem sinkAux_frame :
    ∀ (fuel : Nat) (h : MaxHeap α) (i : Nat),
      (sinkAux h i fuel).size = h.size ∧
      (sinkAux h i fuel).storage.length = h.storage.length
  | 0, _, _ => ⟨rfl, rfl⟩
  | fuel + 1, h, i => by
    simp only [sinkAux]
    split_ifs with hm
    · exact ⟨rfl, rfl⟩
    · obtain ⟨a, b⟩ := sinkAux_frame fuel (h.swap i (sinkTarget h i)) (sinkTarget h i)
      exact ⟨a.trans (swap_size h i _), b.trans (swap_length h i _)⟩

/-- Every `insert` (successful or not) preserves `size` and the storage
length, and a successful one bumps `_count` by exactly one. -/
theorem insert_frame (h : MaxHeap α) (p : Int) (e : α) :
    (insert h p e).2.size = h.size ∧
    (insert h p e).2.storage.length = h.storage.length ∧
    ((insert h p e).1 = Except.ok () → (insert h p e).2.count = h.count + 1) := by
  by_cases hcond : h.inSizeBounds (h.count + 1)
  · rw [insert_eq_ok h p e hcond]
    obtain ⟨a, b, c⟩ := floatAux_frame (h.count + 1)
      { h with storage := h.storage.set (h.count + 1) ⟨p, e⟩ } (h.count + 1)
    refine ⟨?_, ?_, fun _ => ?_⟩
    · show (floatAux { h with storage := h.storage.set (h.count + 1) ⟨p, e⟩ }
        (h.count + 1) (h.count + 1)).size = h.size
      rw [b]
    · show (floatAux { h with storage := h.storage.set (h.count + 1) ⟨p, e⟩ }
        (h.count + 1) (h.count + 1)).storage.length = h.storage.length
      rw [c]
      exact List.length_set _ _ _
    · show (floatAux { h with storage := h.storage.set (h.count + 1) ⟨p, e⟩ }
        (h.count + 1) (h.count + 1)).count + 1 = h.count + 1
      rw [a]
  · rw [insert_eq_error h p e hcond]
    exact ⟨rfl, rfl, fun hab => absurd hab (by simp)⟩

/-- `removeMax` preserves `size` and the storage length. -/
theorem removeMax_frame (h : MaxHeap α) :
    (removeMax h).2.size = h.size ∧
    (removeMax h).2.storage.length = h.storage.length := by
  by_cases h0 : h.count = 0
  · rw [removeMax_eq_empty h h0]
    exact ⟨rfl, rfl⟩
  · rw [removeMax_eq_pos h h0]
    obtain ⟨a, b⟩ := sinkAux_frame
      (({ h.swap 1 h.count with count := (h.swap 1 h.count).count - 1 } : MaxHeap α).count + 1)
      { h.swap 1 h.count with count := (h.swap 1 h.count).count - 1 } 1
    exact ⟨a.trans (swap_size h 1 h.count), b.trans (swap_length h 1 h.count)⟩

/-- The `sort()` loop preserves `size` and the storage length. -/
theorem sortAux_frame :
    ∀ (n : Nat) (h : MaxHeap α),
      (sortAux h n).size = h.size ∧ (sortAux h n).storage.length = h.storage.length
  | 0, _ => ⟨rfl, rfl⟩
  | n + 1, h => by
    simp only [sortAux]
    obtain ⟨a, b⟩ := sortAux_frame n (removeMax h).2
    obtain ⟨c, d⟩ := removeMax_frame h
    exact ⟨a.trans c, b.trans d⟩

/-- The empty constructor gives a well-formed heap. -/
theorem emptyHeap_wf (s : Nat) : Wf (emptyHeap (α := α) s) := by
  refine ⟨?_, ?_, ?_⟩
  · show (List.replicate (s + 1) (default : Record α)).length = s + 1
    exact List.length_replicate _ _
  · show (0 : Nat) ≤ s
    omega
  · intro j hj hj1
    have hc : (emptyHeap (α := α) s).count = 0 := rfl
    exact absurd hj1 (by omega)

/-- `insert` preserves well-formedness (in both branches). -/
theorem insert_wf (h : MaxHeap α) (p : Int) (e : α) (hwf : Wf h) :
    Wf (insert h p e).2 := by
  by_cases hroom : h.count < h.size
  · exact (insert_ok_spec h p e hwf hroom).2.2.2.2
  · rw [insert_eq_error h p e (fun hb => absurd hb.2 (by omega))]
    exact hwf

/-- `removeMax` preserves well-formedness (in both branches). -/
theorem removeMax_wf (h : MaxHeap α) (hwf : Wf h) : Wf (removeMax h).2 := by
  by_cases h0 : h.count = 0
  · rw [removeMax_eq_empty h h0]
    exact hwf
  · exact (removeMax_spec h hwf (by omega)).2.2.2.2.2.2.2.2.2

/-- `sort()` preserves well-formedness (the drained heap is vacuously a
heap). -/
theorem sort_wf (h : MaxHeap α) (hwf : Wf h) : Wf (sort h).2 := by
  obtain ⟨a, b⟩ := sortAux_frame h.count h
  have hc0 : (sortAux h h.count).count = 0 := sortAux_count_eq h.count h rfl
  refine ⟨?_, ?_, ?_⟩
  · show (sortAux h h.count).storage.length = (sortAux h h.count).size + 1
    rw [a, b]
    exact hwf.1
  · show (sortAux h h.count).count ≤ (sortAux h h.count).size
    rw [hc0]
    omega
  · intro j hj hj1
    show childDom (sortAux h h.count) j
    rw [show ((sort h).2).count = (sortAux h h.count).count from rfl, hc0] at hj
    exact absurd hj1 (by omega)

/-- Every heap reachable through the public API is well-formed; in
particular the heap property holds after every completed operation. -/
theorem wf_of_reachable : ∀ (h : MaxHeap α), Reachable h → Wf h := by
  intro h hr
  induction hr with
  | empty s => exact emptyHeap_wf s
  | ofArray arr hne => exact (fromArray_spec arr hne).1
  | insert_step h p e _ ih => exact insert_wf h p e ih
  | remove_step h _ ih => exact removeMax_wf h ih
  | sort_step h _ ih => exact sort_wf h ih

end MaxHeap

end AdsHeaps

namespace AdsHeaps

namespace MaxHeap

variable {α : Type} [Inhabited α]

/-- Peeling the sentinel off a front slice of a nonempty list. -/
theorem take_succ_eq_getD_cons {β : Type} [Inhabited β] :
    ∀ (l : List β) (n : Nat), 0 < l.length →
      l.take (n + 1) = l.getD 0 default :: (l.drop 1).take n
  | _ :: _, _, _ => rfl
  | [], _, hlen => absurd hlen (by simp)

/-- Two lists that are permutations of each other, agree at slot 0, and
agree beyond slot `n` have permutation-equivalent live slices `1..n`. -/
theorem live_slice_perm {β : Type} [Inhabited β] (l l' : List β) (n : Nat)
    (hlen : l'.length = l.length) (hn : n < l.length) (hperm : l'.Perm l)
    (h0 : l'.getD 0 default = l.getD 0 default)
    (hhigh : ∀ j, n < j → l'.getD j default = l.getD j default) :
    ((l'.drop 1).take n).Perm ((l.drop 1).take n) := by
  have hlen' : 0 < l'.length := by omega
  have hdropeq : l'.drop (n + 1) = l.drop (n + 1) := by
    apply List.ext_getElem
    · rw [List.length_drop, List.length_drop, hlen]
    · intro k hk1 hk2
      rw [List.getElem_drop, List.getElem_drop]
      have hb1 : n + 1 + k < l'.length := by
        rw [List.length_drop] at hk1
        omega
      have hb2 : n + 1 + k < l.length := by
        rw [List.length_drop] at hk2
        omega
      rw [← List.getD_eq_getElem l' default hb1, ← List.getD_eq_getElem l default hb2]
      exact hhigh (n + 1 + k) (by omega)
  have htake : (↑(l'.take (n + 1)) : Multiset β) = ↑(l.take (n + 1)) := by
    have h1 : (↑l' : Multiset β) = ↑l := Multiset.coe_eq_coe.mpr hperm
    rw [← List.take_append_drop (n + 1) l', ← List.take_append_drop (n + 1) l,
      ← Multiset.coe_add, ← Multiset.coe_add, hdropeq] at h1
    exact add_right_cancel h1
  rw [take_succ_eq_getD_cons l' n hlen', take_succ_eq_getD_cons l n (by omega), h0] at htake
  exact (Multiset.coe_eq_coe.mp htake).cons_inv

/-! ### The drained sequences -/

/-- The priorities extracted by fully draining a well-formed heap are
non-increasing, and all of them are bounded by the initial root priority. -/
theorem drain_sorted_aux :
    ∀ (n : Nat) (g : MaxHeap α), Wf g → g.count = n →
      List.Sorted (fun a b : Int => b ≤ a) (drainPrios g n) ∧
      ∀ x ∈ drainPrios g n, x ≤ (g.get 1).priority
  | 0, g, _, _ => by
    constructor
    · exact List.sorted_nil
    · intro x hx
      simp [drainPrios] at hx
  | n + 1, g, hwf, hc => by
    obtain ⟨r1, rc, _, _, _, _, _, _, rball, rwf⟩ := removeMax_spec g hwf (by omega)
    obtain ⟨ih1, ih2⟩ := drain_sorted_aux n (removeMax g).2 rwf (by rw [rc]; omega)
    simp only [drainPrios]
    have hroot : ∀ x ∈ drainPrios (removeMax g).2 n, x ≤ (g.get 1).priority := by
      intro x hx
      have h1 := ih2 x hx
      by_cases hn0 : n = 0
      · subst hn0
        simp [drainPrios] at hx
      · have h2 : (((removeMax g).2).get 1).priority ≤ (g.get 1).priority :=
          rball 1 (le_refl _) (by omega)
        exact le_trans h1 h2
    constructor
    · rw [List.sorted_cons]
      exact ⟨hroot, ih1⟩
    · intro x hx
      rcases List.mem_cons.mp hx with he | ht
      · exact le_of_eq he
      · exact hroot x ht

end MaxHeap

end AdsHeaps

namespace AdsHeaps

namespace MaxHeap

/-! ### Concrete instances used by the spec's example scenarios -/

/-- Spec example scenario 1: a capacity-4 heap after inserting priorities
5, 3, 8, 1 with payloads 10, 20, 30, 40. -/
def exampleHeap : MaxHeap Nat :=
  (insert (insert (insert (insert (emptyHeap 4) 5 10).2 3 20).2 8 30).2 1 40).2

/-- Spec example scenario 5: the 1-indexed array `[_, 5, 1, 9, 3]`. -/
def exampleArr : List (Record Nat) := [⟨0, 0⟩, ⟨5, 1⟩, ⟨1, 2⟩, ⟨9, 3⟩, ⟨3, 4⟩]

/-- Spec example scenario 2: the 1-indexed array `[_, 3, 1, 2]`. -/
def exampleSortArr : List (Record Nat) := [⟨0, 0⟩, ⟨3, 1⟩, ⟨1, 2⟩, ⟨2, 3⟩]

/-- Spec example scenario 3: a full capacity-2 heap. -/
def fullHeap : MaxHeap Nat := (insert (insert (emptyHeap 2) 1 7).2 2 8).2

/-- A heap whose root's two live children carry equal priorities. -/
def tieHeap : MaxHeap Nat :=
  { storage := [⟨0, 0⟩, ⟨0, 1⟩, ⟨5, 2⟩, ⟨5, 3⟩], size := 3, count := 3 }

/-! ### The claims -/

/-- C4: inserting into a heap already holding `capacity` records fails with
the Capacity error (`throw new Error('Heap is full!')`) and has no effect:
the resulting state is the argument heap itself, so `_count` and every
storage slot are unchanged. -/
theorem insert_full_fails_no_effect :
    ∀ (α : Type) [Inhabited α] (h : MaxHeap α) (p : Int) (e : α),
      h.count = h.size →
      insert h p e = (Except.error "Heap is full!", h) := by
  intro α _ h p e hfull
  exact insert_eq_error h p e (fun hb => absurd hb.2 (by omega))

theorem insert_full_fails_no_effect_witness :
    fullHeap.count = fullHeap.size ∧
    insert fullHeap 9 9 = (Except.error "Heap is full!", fullHeap) :=
  ⟨by decide, insert_full_fails_no_effect Nat fullHeap 9 9 (by decide)⟩

/-- C5: `removeMax()` on a heap with `_count = 0` returns the distinguished
empty indicator (`undefined`, modelled as `none`; not an error) and leaves
the heap, in particular `_count`, unchanged at 0. -/
theorem removeMax_empty_indicator :
    ∀ (α : Type) [Inhabited α] (h : MaxHeap α), h.count = 0 →
      removeMax h = (none, h) ∧ (removeMax h).2.count = 0 := by
  intro α _ h h0
  refine ⟨removeMax_eq_empty h h0, ?_⟩
  rw [removeMax_eq_empty h h0]
  exact h0

theorem removeMax_empty_indicator_witness :
    removeMax (emptyHeap 3 : MaxHeap Nat) = (none, emptyHeap 3) ∧
    (removeMax (emptyHeap 3 : MaxHeap Nat)).2.count = 0 :=
  removeMax_empty_indicator Nat (emptyHeap 3) rfl

/-- C6: `count()` reports `_count` without side effects; `_count` is 0
right after empty construction and right after `sort()`; every successful
`insert` increments it by exactly one and every `removeMax` on a nonempty
heap decrements it by exactly one. -/
theorem count_consistency :
    ∀ (α : Type) [Inhabited α],
      (∀ s : Nat, (emptyHeap (α := α) s).count = 0) ∧
      (∀ h : MaxHeap α, countQ h = (h.count, h)) ∧
      (∀ h : MaxHeap α, (sort h).2.count = 0) ∧
      (∀ (h : MaxHeap α) (p : Int) (e : α), (insert h p e).1 = Except.ok () →
        (insert h p e).2.count = h.count + 1) ∧
      (∀ h : MaxHeap α, 0 < h.count → (removeMax h).2.count = h.count - 1) := by
  intro α _
  exact ⟨fun _ => rfl, fun _ => rfl, fun h => sortAux_count_eq h.count h rfl,
    fun h p e hok => (insert_frame h p e).2.2 hok,
    fun h h0 => removeMax_count_pos h h0⟩

theorem count_consistency_witness :
    (insert (emptyHeap 3 : MaxHeap Nat) 5 0).2.count =
      (emptyHeap 3 : MaxHeap Nat).count + 1 ∧
    (removeMax exampleHeap).2.count = exampleHeap.count - 1 :=
  ⟨(count_consistency Nat).2.2.2.1 (emptyHeap 3) 5 0 rfl,
   (count_consistency Nat).2.2.2.2 exampleHeap (by decide)⟩

/-- C9 counterexample: at `tieHeap` the left and right children of index 1
are live with equal priority 5 (so the right child's priority is not less
than the tracked max), yet `_sink`'s swap target is the left child 2, not
the right child 3 — the code takes the right child only on a strictly
greater priority. -/
theorem sink_tie_right_pref_counterexample :
    tieHeap.inCountBounds (left 1) ∧ tieHeap.inCountBounds (right 1) ∧
    (tieHeap.get (left 1)).priority = (tieHeap.get (right 1)).priority ∧
    (tieHeap.get 1).priority < (tieHeap.get (left 1)).priority ∧
    ¬ (tieHeap.get (right 1)).priority < (tieHeap.get (left 1)).priority ∧
    sinkTarget tieHeap 1 = left 1 ∧ ¬ sinkTarget tieHeap 1 = right 1 := by
  decide

/-- C9 (amended): during `_sink`, when both children are live with equal
priorities the right child is never the swap target — the left child is
chosen when its priority exceeds the current slot's priority, and no swap
happens otherwise; the right child is taken only when strictly greater
than the tracked max. -/
theorem sink_tie_prefers_left :
    ∀ (α : Type) [Inhabited α] (h : MaxHeap α) (i : Nat), 1 ≤ i →
      h.inCountBounds (left i) → h.inCountBounds (right i) →
      (h.get (left i)).priority = (h.get (right i)).priority →
      sinkTarget h i ≠ right i ∧
      sinkTarget h i =
        (if (h.get i).priority < (h.get (left i)).priority then left i else i) := by
  intro α _ h i hi hl hr heq2
  simp only [left, right] at hl hr heq2 ⊢
  have key : sinkTarget h i =
      if (h.get i).priority < (h.get (2 * i)).priority then 2 * i else i := by
    by_cases hlt : (h.get i).priority < (h.get (2 * i)).priority
    · have c1 : h.inCountBounds (2 * i) ∧
          (h.get i).priority < (h.get (2 * i)).priority := ⟨hl, hlt⟩
      have c2 : ¬ (h.inCountBounds (2 * i + 1) ∧
          (h.get (2 * i)).priority < (h.get (2 * i + 1)).priority) := by
        intro hcon
        rw [← heq2] at hcon
        exact absurd hcon.2 (lt_irrefl _)
      simp only [sinkTarget, left, right]
      rw [if_pos c1, if_neg c2, if_pos hlt]
    · have c1 : ¬ (h.inCountBounds (2 * i) ∧
          (h.get i).priority < (h.get (2 * i)).priority) := fun hcon => hlt hcon.2
      have c2 : ¬ (h.inCountBounds (2 * i + 1) ∧
          (h.get i).priority < (h.get (2 * i + 1)).priority) := by
        intro hcon
        rw [← heq2] at hcon
        exact hlt hcon.2
      simp only [sinkTarget, left, right]
      rw [if_neg c1]
      rw [if_neg c2, if_neg hlt]
  refine ⟨?_, key⟩
  rw [key]
  split_ifs with hcase
  · omega
  · omega

theorem sink_tie_prefers_left_witness :
    sinkTarget tieHeap 1 ≠ right 1 ∧
    sinkTarget tieHeap 1 =
      (if (tieHeap.get 1).priority < (tieHeap.get (left 1)).priority
        then left 1 else 1) :=
  sink_tie_prefers_left Nat tieHeap 1 (by decide) (by decide) (by decide) (by decide)

/-- C10: no public operation ever appends to, truncates, or reallocates the
backing storage: the empty constructor allocates exactly `size + 1` slots,
and `insert`, `removeMax`, `sort`, and `count()` all preserve the storage
length and the capacity (the operations only `set` existing slots). -/
theorem storage_length_invariant :
    ∀ (α : Type) [Inhabited α],
      (∀ s : Nat, (emptyHeap (α := α) s).storage.length =
        (emptyHeap (α := α) s).size + 1) ∧
      (∀ (h : MaxHeap α) (p : Int) (e : α),
        (insert h p e).2.storage.length = h.storage.length ∧
        (insert h p e).2.size = h.size) ∧
      (∀ h : MaxHeap α,
        (removeMax h).2.storage.length = h.storage.length ∧
        (removeMax h).2.size = h.size) ∧
      (∀ h : MaxHeap α,
        (sort h).2.storage.length = h.storage.length ∧ (sort h).2.size = h.size) ∧
      (∀ h : MaxHeap α, (countQ h).2 = h) := by
  intro α _
  exact ⟨fun s => List.length_replicate _ _,
    fun h p e => ⟨(insert_frame h p e).2.1, (insert_frame h p e).1⟩,
    fun h => ⟨(removeMax_frame h).2, (removeMax_frame h).1⟩,
    fun h => ⟨(sortAux_frame h.count h).2, (sortAux_frame h.count h).1⟩,
    fun _ => rfl⟩

end MaxHeap

end AdsHeaps

namespace AdsHeaps

namespace MaxHeap

/-- C2: the max-heap invariant — every live parent's priority is at least
each live child's — holds after every completed public operation, for
every heap reachable by any sequence of construction, `insert`,
`removeMax`, and `sort`. -/
theorem heap_invariant_reachable :
    ∀ (α : Type) [Inhabited α] (h : MaxHeap α), Reachable h →
      ∀ i, 1 ≤ i → i ≤ h.count →
        (left i ≤ h.count → (h.get (left i)).priority ≤ (h.get i).priority) ∧
        (right i ≤ h.count → (h.get (right i)).priority ≤ (h.get i).priority) := by
  intro α _ h hr i hi1 hic
  have hd := (wf_of_reachable h hr).2.2 i hic hi1
  exact ⟨fun hl => hd.1 hl, fun hrr => hd.2 hrr⟩

theorem heap_invariant_reachable_witness :
    Reachable exampleHeap ∧
    (left 1 ≤ exampleHeap.count →
      (exampleHeap.get (left 1)).priority ≤ (exampleHeap.get 1).priority) ∧
    (right 1 ≤ exampleHeap.count →
      (exampleHeap.get (right 1)).priority ≤ (exampleHeap.get 1).priority) := by
  have hreach : Reachable exampleHeap :=
    Reachable.insert_step _ 1 40 (Reachable.insert_step _ 8 30
      (Reachable.insert_step _ 3 20 (Reachable.insert_step _ 5 10
        (Reachable.empty 4))))
  obtain ⟨a, b⟩ := heap_invariant_reachable Nat exampleHeap hreach 1 (by decide) (by decide)
  exact ⟨hreach, a, b⟩

/-- C3: draining a well-formed heap yields a non-increasing priority
sequence; each extracted record is the root at the time of the call (whose
element `removeMax` returns); and in particular inserting priorities
5, 3, 8, 1 into a capacity-4 empty heap and calling `removeMax` four times
returns the payloads whose priorities are 8, 5, 3, 1, in that order. -/
theorem removeMax_sequence_nonincreasing :
    (∀ (α : Type) [Inhabited α] (h : MaxHeap α), Wf h →
      List.Sorted (fun a b : Int => b ≤ a) (drainPrios h h.count)) ∧
    (∀ (α : Type) [Inhabited α] (h : MaxHeap α), 0 < h.count → Wf h →
      (removeMax h).1 = some ((h.get 1).element)) ∧
    drainPrios exampleHeap 4 = [8, 5, 3, 1] ∧
    drainElems exampleHeap 4 = [some 30, some 10, some 20, some 40] := by
  refine ⟨?_, ?_, by decide, by decide⟩
  · intro α _ h hwf
    exact (drain_sorted_aux h.count h hwf rfl).1
  · intro α _ h h0 hwf
    exact (removeMax_spec h hwf h0).1

theorem removeMax_sequence_nonincreasing_witness :
    Wf exampleHeap ∧
    List.Sorted (fun a b : Int => b ≤ a) (drainPrios exampleHeap exampleHeap.count) := by
  have hwf : Wf exampleHeap := by decide
  exact ⟨hwf, removeMax_sequence_nonincreasing.1 Nat exampleHeap hwf⟩

/-- C7: on a well-formed heap with `n` live records, `sort()` returns the
storage array itself, leaves `_count = 0`, and leaves slots `1..n` holding
all `n` original records in ascending priority order. -/
theorem sort_ascending_drains :
    ∀ (α : Type) [Inhabited α] (h : MaxHeap α), Wf h →
      (sort h).1 = (sort h).2.storage ∧
      (sort h).2.count = 0 ∧
      (∀ k k', 1 ≤ k → k ≤ k' → k' ≤ h.count →
        ((sort h).2.get k).priority ≤ ((sort h).2.get k').priority) ∧
      (((sort h).2.storage.drop 1).take h.count).Perm
        ((h.storage.drop 1).take h.count) := by
  intro α _ h hwf
  obtain ⟨c0, csz, clen, cperm, chigh, c0get, csort, cbound⟩ :=
    sortAux_spec h.count h hwf rfl
  refine ⟨rfl, c0, csort, ?_⟩
  exact live_slice_perm h.storage (sortAux h h.count).storage h.count
    clen (by obtain ⟨hl, hc, _⟩ := hwf; omega) cperm c0get (fun j hj => chigh j hj)

theorem sort_ascending_drains_witness :
    Wf exampleHeap ∧ (sort exampleHeap).2.count = 0 ∧
    (((sort exampleHeap).2.storage.drop 1).take exampleHeap.count).Perm
      ((exampleHeap.storage.drop 1).take exampleHeap.count) := by
  have hwf : Wf exampleHeap := by decide
  obtain ⟨a, b, c, d⟩ := sort_ascending_drains Nat exampleHeap hwf
  exact ⟨hwf, b, d⟩

/-- C8: the heapify constructor adopts the given array as storage, sets
`size = length - 1` and `_count = size`, runs `_buildheap` (sinking from
`⌊count / 2⌋` down to 1), and afterwards slot 1 carries a priority at
least that of every input record; on `[_, 5, 1, 9, 3]` slot 1 carries 9. -/
theorem fromArray_heapifies :
    (∀ (α : Type) [Inhabited α] (arr : List (Record α)), 1 ≤ arr.length →
      (fromArray arr).size = arr.length - 1 ∧
      (fromArray arr).count = arr.length - 1 ∧
      fromArray arr = buildheapAux
        { storage := arr, size := arr.length - 1, count := arr.length - 1 }
        ((arr.length - 1) / 2) ∧
      (∀ j, 1 ≤ j → j ≤ arr.length - 1 →
        (arr.getD j default).priority ≤ ((fromArray arr).get 1).priority)) ∧
    ((fromArray exampleArr).get 1).priority = 9 := by
  refine ⟨?_, by decide⟩
  intro α _ arr hne
  obtain ⟨hwf, hc, hsz, hlen, hperm, h0, hex⟩ := fromArray_spec arr hne
  refine ⟨hsz, hc, rfl, ?_⟩
  intro j hj1 hjn
  obtain ⟨k, hk1, hk2, hk3⟩ :=
    hex (arr.getD j default).priority ⟨j, hj1, hjn, le_refl _⟩
  have hk2' : k ≤ (fromArray arr).count := by omega
  exact le_trans hk3 (le_root_of_heapProp (fromArray arr) hwf.2.2 k hk1 hk2')

theorem fromArray_heapifies_witness :
    1 ≤ exampleArr.length ∧
    (fromArray exampleArr).count = exampleArr.length - 1 ∧
    (exampleArr.getD 3 default).priority ≤ ((fromArray exampleArr).get 1).priority := by
  obtain ⟨hsz, hc, hb, hmax⟩ := fromArray_heapifies.1 Nat exampleArr (by decide)
  exact ⟨by decide, hc, hmax 3 (by decide) (by decide)⟩

/-- C1: `heapsort` sorts the caller's 1-indexed array in place: the
resulting storage has the same length, the sentinel slot 0 is untouched,
the records at slots `1..n` are a permutation of the input records at
slots `1..n`, and their priorities are in non-decreasing order. -/
theorem heapsort_sorts_in_place :
    ∀ (α : Type) [Inhabited α] (arr : List (Record α)), 1 ≤ arr.length →
      (heapsort arr).length = arr.length ∧
      (heapsort arr).getD 0 default = arr.getD 0 default ∧
      ((heapsort arr).drop 1).Perm (arr.drop 1) ∧
      (∀ k k', 1 ≤ k → k ≤ k' → k' ≤ arr.length - 1 →
        ((heapsort arr).getD k default).priority ≤
          ((heapsort arr).getD k' default).priority) := by
  intro α _ arr hne
  obtain ⟨hwf, hc, hsz, hlen, hperm, h0, hex⟩ := fromArray_spec arr hne
  obtain ⟨s0, ssz, slen, sperm, shigh, s0get, ssort, sbound⟩ :=
    sortAux_spec (fromArray arr).count (fromArray arr) hwf rfl
  have hres : heapsort arr =
      (sortAux (fromArray arr) (fromArray arr).count).storage := rfl
  refine ⟨?_, ?_, ?_, ?_⟩
  · rw [hres, slen, hlen]
  · exact s0get.trans h0
  · have p1 := live_slice_perm (fromArray arr).storage
      (sortAux (fromArray arr) (fromArray arr).count).storage (fromArray arr).count
      slen (by rw [hlen, hc]; omega) sperm s0get (fun j hj => shigh j hj)
    have p2 := live_slice_perm arr (fromArray arr).storage (fromArray arr).count
      hlen (by rw [hc]; omega) hperm h0
      (fun j hj => by
        have hj' : arr.length ≤ j := by omega
        rw [List.getD_eq_default _ _ (by rw [hlen]; omega),
          List.getD_eq_default _ _ hj'])
    have e1 : ((sortAux (fromArray arr) (fromArray arr).count).storage.drop 1).take
        (fromArray arr).count =
        (sortAux (fromArray arr) (fromArray arr).count).storage.drop 1 := by
      apply List.take_of_length_le
      rw [List.length_drop, slen, hlen, hc]
    have e2 : (arr.drop 1).take (fromArray arr).count = arr.drop 1 := by
      apply List.take_of_length_le
      rw [List.length_drop, hc]
    rw [hres, ← e1, ← e2]
    exact p1.trans p2
  · intro k k' hk1 hkk' hk'n
    exact ssort k k' hk1 hkk' (by omega)

theorem heapsort_sorts_in_place_witness :
    1 ≤ exampleSortArr.length ∧
    (heapsort exampleSortArr).length = exampleSortArr.length ∧
    ((heapsort exampleSortArr).getD 1 default).priority ≤
      ((heapsort exampleSortArr).getD 2 default).priority := by
  obtain ⟨a, b, c, d⟩ := heapsort_sorts_in_place Nat exampleSortArr (by decide)
  exact ⟨by decide, a, d 1 2 (by decide) (by decide) (by decide)⟩

end MaxHeap

end AdsHeaps
